import Mathlib

/-!
Verification of the observer-consumer CORE of the `flo` repository:
the chunked game-record log with archival (`src/crates/observer-consumer/src/fs.rs`)
and the shard/game progress cache (`src/crates/observer-consumer/src/cache.rs`).

The Rust code is shallowly embedded: the filesystem of a single game directory
becomes an explicit `FsState` value, file writes and renames become state
updates, machine integers become `Nat`/`Int` with explicit wrap-around, and
fallible operations return `Except`.  The gzip codec used by the archive
builder and archive reader is modelled as the identity on the plaintext
stream: the build produces the plaintext that the reader's decoder yields.
-/

namespace Flo

/-- Error kinds of the CORE, from `crates/observer-consumer/src/error.rs` usage
sites in `fs.rs`: filesystem failures surface as `ioErr`, record decoding as
`recordDecode`, header decoding as `decodeArchiveHeader`; the `assert!` on
oversized writes is modelled as `recordTooLarge`. -/
inductive FloError where
  | ioErr
  | recordDecode
  | decodeArchiveHeader
  | recordTooLarge
deriving DecidableEq, Repr

/-- `MAX_CHUNK_SIZE` from fs.rs: `4 * 1024`. -/
def MAX_CHUNK_SIZE : Nat := 4 * 1024

/-- Little-endian byte encoding of a 32-bit unsigned value (low byte first). -/
def u32leBytes (v : Nat) : List Nat :=
  [v % 256, v / 256 % 256, v / 65536 % 256, v / 16777216 % 256]

/-- Value of four little-endian bytes. -/
def u32leValue (b0 b1 b2 b3 : Nat) : Nat :=
  b0 + 256 * b1 + 65536 * b2 + 16777216 * b3

/-- Little-endian byte encoding of an `i32` (two's complement). -/
def i32leBytes (v : Int) : List Nat :=
  u32leBytes (v % (2 ^ 32 : Int)).toNat

/-- Reinterpret a 32-bit unsigned value as a signed `i32`. -/
def i32ofU32 (n : Nat) : Int :=
  if n < 2 ^ 31 then (n : Int) else (n : Int) - 2 ^ 32

theorem u32le_round (v : Nat) (h : v < 2 ^ 32) :
    u32leValue (v % 256) (v / 256 % 256) (v / 65536 % 256) (v / 16777216 % 256) = v := by
  unfold u32leValue
  omega

theorem i32le_round (v : Int) (h1 : -(2 ^ 31) ≤ v) (h2 : v < 2 ^ 31) :
    i32ofU32 (u32leValue ((v % (2 ^ 32 : Int)).toNat % 256)
      ((v % (2 ^ 32 : Int)).toNat / 256 % 256)
      ((v % (2 ^ 32 : Int)).toNat / 65536 % 256)
      ((v % (2 ^ 32 : Int)).toNat / 16777216 % 256)) = v := by
  have hlt : (v % (2 ^ 32 : Int)).toNat < 2 ^ 32 := by omega
  rw [u32le_round _ hlt]
  unfold i32ofU32
  split <;> omega

/-- Modelled from the spec: the record type `GameRecordData` lives in the
`flo-observer` crate, which is not under src/.  Spec §3 and §4.A: a closed
tagged set of game events (e.g. `StopLag(i32)` and peers), each with a
deterministic self-delimiting binary encoding, `encoded_size` equal to the
number of bytes `encode` emits and `decode` consumes, and no encoding larger
than `MAX_CHUNK_SIZE`.  Two representative variants are modelled: a
fixed-size `stopLag` (tag byte then an `i32` payload, little-endian) and a
variable-size `chat` (tag byte, a `u32` little-endian length, then that many
raw bytes). -/
inductive GameRecordData where
  | stopLag (value : Int)
  | chat (bytes : List Nat)
deriving DecidableEq, Repr

/-- `encode_len`: the declared encoded size of a record. -/
def GameRecordData.encode_len : GameRecordData → Nat
  | .stopLag _ => 5
  | .chat bs => 5 + bs.length

/-- `encode`: the bytes a record appends to the output buffer. -/
def GameRecordData.encode : GameRecordData → List Nat
  | .stopLag v => 0 :: i32leBytes v
  | .chat bs => 1 :: (u32leBytes bs.length ++ bs)

/-- `decode`: consume exactly one record's encoding from the front of the
input, returning the record and the remaining bytes; malformed or truncated
input fails with `recordDecode`. -/
def GameRecordData.decode : List Nat → Except FloError (GameRecordData × List Nat)
  | 0 :: b0 :: b1 :: b2 :: b3 :: tail =>
      .ok (.stopLag (i32ofU32 (u32leValue b0 b1 b2 b3)), tail)
  | 1 :: b0 :: b1 :: b2 :: b3 :: tail =>
      let n := u32leValue b0 b1 b2 b3
      if n ≤ tail.length then .ok (.chat (tail.take n), tail.drop n)
      else .error .recordDecode
  | _ => .error .recordDecode

/-- Well-formedness of a record value as a machine value: the `stopLag`
payload is a genuine `i32` and the `chat` length fits a `u32` (in the Rust
source both hold by typing). -/
def GameRecordData.wf : GameRecordData → Prop
  | .stopLag v => -(2 ^ 31) ≤ v ∧ v < 2 ^ 31
  | .chat bs => bs.length < 2 ^ 32

instance (r : GameRecordData) : Decidable r.wf := by
  cases r <;> simp only [GameRecordData.wf] <;> infer_instance

theorem GameRecordData.encode_length (r : GameRecordData) :
    r.encode.length = r.encode_len := by
  cases r <;> simp [encode, encode_len, i32leBytes, u32leBytes] <;> omega

theorem GameRecordData.encode_ne_nil (r : GameRecordData) : r.encode ≠ [] := by
  cases r <;> simp [encode]

theorem GameRecordData.decode_encode (r : GameRecordData) (hwf : r.wf) (b : List Nat) :
    GameRecordData.decode (r.encode ++ b) = .ok (r, b) := by
  cases r with
  | stopLag v =>
      obtain ⟨h1, h2⟩ := hwf
      simp only [encode, i32leBytes, u32leBytes, List.cons_append, List.nil_append, decode]
      rw [i32le_round v h1 h2]
  | chat bs =>
      simp only [wf] at hwf
      simp only [encode, u32leBytes, List.cons_append, List.nil_append, List.append_assoc, decode]
      rw [u32le_round bs.length hwf]
      have hle : bs.length ≤ (bs ++ b).length := by simp
      rw [if_pos hle, List.take_left, List.drop_left]

theorem GameRecordData.decode_length_lt {l : List Nat} {r : GameRecordData}
    {rest : List Nat} (h : GameRecordData.decode l = .ok (r, rest)) :
    rest.length < l.length := by
  unfold decode at h
  split at h
  · cases h
    simp
    omega
  · rename_i b0 b1 b2 b3 tail
    dsimp only at h
    split at h
    · cases h
      simp only [List.length_cons, List.length_drop]
      omega
    · cases h
  · cases h

/-- Concatenated encoding of a list of records (the byte image of a chunk
holding exactly those records). -/
def encodeAll (rs : List GameRecordData) : List Nat :=
  (rs.map GameRecordData.encode).flatten

theorem encodeAll_nil : encodeAll [] = [] := rfl

theorem encodeAll_cons (r : GameRecordData) (rs : List GameRecordData) :
    encodeAll (r :: rs) = r.encode ++ encodeAll rs := by
  simp [encodeAll]

/-!
## The game directory (fs.rs)

A game directory `<DATA_ROOT>/<game_id>/` is modelled by `FsState`: the
promoted chunk files `chunk_<n>` as an association list from `n` to file
bytes (directory entries not named `chunk_<n>`, such as `archive.gz`, are
skipped by the reader's scan and are modelled separately), the `_chunk`
scratch file, and the optional `archive.gz` whose gzip plaintext is stored
(gzip itself modelled as the identity).
-/

/-- One game directory on disk. -/
structure FsState where
  chunkFiles : List (Nat × List Nat)
  scratch : List Nat
  archive : Option (List Nat)
deriving DecidableEq, Repr

/-- A freshly created game directory: no chunk files, empty `_chunk`, no
archive. -/
def emptyFs : FsState := ⟨[], [], none⟩

/-- `fs::read` of `chunk_<id>`: the file's bytes, or an I/O error when the
file does not exist. -/
def readFile (fs : FsState) (id : Nat) : Except FloError (List Nat) :=
  match fs.chunkFiles.lookup id with
  | some c => .ok c
  | none => .error .ioErr

/-- `fs::rename(_chunk, chunk_<id>)`: (re)bind `chunk_<id>` (a same-directory
rename replaces any existing file of that name). -/
def setFile (files : List (Nat × List Nat)) (id : Nat) (c : List Nat) :
    List (Nat × List Nat) :=
  files.filter (fun p => !(p.1 == id)) ++ [(id, c)]

/-- `GameDataWriter` state: `game_id`, the next chunk id to assign on
promotion, and the in-memory chunk buffer. -/
structure GameDataWriter where
  game_id : Int
  chunk_id : Nat
  chunk_buf : List Nat
deriving DecidableEq, Repr

/-- `WriteDestination` from fs.rs. -/
inductive WriteDestination where
  | CurrentChunk
  | NewChunk
deriving DecidableEq, Repr

/-- `GameDataWriter::create`: ensure the directory exists and truncate-create
`_chunk`; fresh writer with `chunk_id = 0` and an empty buffer. -/
def GameDataWriter.create (game_id : Int) (fs : FsState) :
    GameDataWriter × FsState :=
  (⟨game_id, 0, []⟩, { fs with scratch := [] })

/-- `GameDataWriter::flush_chunk`: no-op on an empty buffer; otherwise write
the buffer to `_chunk`, fsync, rename `_chunk` to `chunk_<chunk_id>`,
increment `chunk_id`, and truncate-create a fresh `_chunk`. -/
def GameDataWriter.flush_chunk (w : GameDataWriter) (fs : FsState) :
    GameDataWriter × FsState :=
  if w.chunk_buf = [] then (w, fs)
  else
    (⟨w.game_id, w.chunk_id + 1, []⟩,
      { fs with chunkFiles := setFile fs.chunkFiles w.chunk_id w.chunk_buf,
                scratch := [] })

/-- `GameDataWriter::write_record`: reject encodings larger than
`MAX_CHUNK_SIZE` (the source `assert!`), flush first when the buffered bytes
plus the new encoding would exceed `MAX_CHUNK_SIZE`, then append the record's
encoding to the buffer. -/
def GameDataWriter.write_record (w : GameDataWriter) (fs : FsState)
    (data : GameRecordData) :
    Except FloError (WriteDestination × GameDataWriter × FsState) :=
  if data.encode_len > MAX_CHUNK_SIZE then .error .recordTooLarge
  else if w.chunk_buf.length + data.encode_len > MAX_CHUNK_SIZE then
    let (w1, fs1) := w.flush_chunk fs
    .ok (.NewChunk, ⟨w1.game_id, w1.chunk_id, w1.chunk_buf ++ data.encode⟩, fs1)
  else
    .ok (.CurrentChunk, ⟨w.game_id, w.chunk_id, w.chunk_buf ++ data.encode⟩, fs)

/-- `GameDataWriter::write_bytes`: the raw-splice variant of `write_record`
for a byte slice. -/
def GameDataWriter.write_bytes (w : GameDataWriter) (fs : FsState)
    (bytes : List Nat) :
    Except FloError (WriteDestination × GameDataWriter × FsState) :=
  if bytes.length > MAX_CHUNK_SIZE then .error .recordTooLarge
  else if w.chunk_buf.length + bytes.length > MAX_CHUNK_SIZE then
    let (w1, fs1) := w.flush_chunk fs
    .ok (.NewChunk, ⟨w1.game_id, w1.chunk_id, w1.chunk_buf ++ bytes⟩, fs1)
  else
    .ok (.CurrentChunk, ⟨w.game_id, w.chunk_id, w.chunk_buf ++ bytes⟩, fs)

/-- `GameDataWriter::sync_all`: flush the buffer unless it is empty. -/
def GameDataWriter.sync_all (w : GameDataWriter) (fs : FsState) :
    GameDataWriter × FsState :=
  if w.chunk_buf = [] then (w, fs) else w.flush_chunk fs

/-- `FileHeader`: 4 signature bytes then `game_id` as a little-endian i32. -/
structure FileHeader where
  signature : List Nat
  game_id : Int
deriving DecidableEq, Repr

/-- `FileHeader::SIGNATURE = b"flo\x01"`. -/
def SIGNATURE : List Nat := [0x66, 0x6C, 0x6F, 0x01]

/-- `FileHeader::new`. -/
def FileHeader.new (game_id : Int) : FileHeader := ⟨SIGNATURE, game_id⟩

/-- `FileHeader::bytes` (the derived `BinEncode`): signature then the id. -/
def FileHeader.bytes (h : FileHeader) : List Nat :=
  h.signature ++ i32leBytes h.game_id

/-- `FileHeader::decode` (the derived `BinDecode` on an 8-byte buffer):
check the signature, then read the id; too few bytes or a signature
mismatch is a decode error. -/
def FileHeader.decode (l : List Nat) : Except FloError FileHeader :=
  match l with
  | s0 :: s1 :: s2 :: s3 :: b0 :: b1 :: b2 :: b3 :: _ =>
      if [s0, s1, s2, s3] = SIGNATURE then
        .ok ⟨[s0, s1, s2, s3], i32ofU32 (u32leValue b0 b1 b2 b3)⟩
      else .error .decodeArchiveHeader
  | _ => .error .decodeArchiveHeader

/-- `GameDataWriter::build_archive`: flush the buffer, then create-or-truncate
`archive.gz` and write the gzip stream whose plaintext is the 8-byte
`FileHeader` followed by the bytes of `chunk_0 .. chunk_{chunk_id-1}` in
order. -/
def GameDataWriter.build_archive (w : GameDataWriter) (fs : FsState) :
    Except FloError (GameDataWriter × FsState) :=
  let (w1, fs1) := w.flush_chunk fs
  match (List.range w1.chunk_id).mapM (readFile fs1) with
  | .error e => .error e
  | .ok chunks =>
      .ok (w1, { fs1 with
        archive := some ((FileHeader.new w1.game_id).bytes ++ chunks.flatten) })

/-- `GameDataReader`: `game_id` and the id one past the last promoted chunk. -/
structure GameDataReader where
  game_id : Int
  next_chunk_id : Nat
deriving DecidableEq, Repr

/-- `GameDataReader::open`: scan the game directory, track the maximum `n`
over files named `chunk_<n>` starting from `max_chunk_id = 0` (`_chunk` and
other entries are skipped), and set `next_chunk_id = max_chunk_id + 1`.
The scan requires the directory to exist. -/
def GameDataReader.open (game_id : Int) (fs : FsState) : GameDataReader :=
  ⟨game_id, fs.chunkFiles.foldl (fun m p => max m p.1) 0 + 1⟩

/-- The maximum-id fold that `GameDataReader::open` performs. -/
def maxFileId (fs : FsState) : Nat :=
  fs.chunkFiles.foldl (fun m p => max m p.1) 0

/-- `GameDataWriter::recover`: open the directory through
`GameDataReader::open`, truncate-create `_chunk`, and resume with
`chunk_id = next_chunk_id` and an empty buffer (pre-existing `_chunk`
content is discarded). -/
def GameDataWriter.recover (game_id : Int) (fs : FsState) :
    GameDataWriter × FsState :=
  let r := GameDataReader.open game_id fs
  (⟨game_id, r.next_chunk_id, []⟩, { fs with scratch := [] })

/-- `GameDataReaderRecordsInner`: the archive reader iterates over an
in-memory content buffer, the chunk-log reader over the chunk files. -/
inductive RecordsInner where
  | content
  | chunks (r : GameDataReader)
deriving DecidableEq, Repr

/-- `GameDataReaderRecordsInner::last_chunk_id`. -/
def RecordsInner.last_chunk_id : RecordsInner → Nat
  | .content => 0
  | .chunks r => r.next_chunk_id - 1

/-- `GameDataReaderRecords`: the streaming record iterator's state. -/
structure GameDataReaderRecords where
  inner : RecordsInner
  current_chunk : Option Nat
  chunk_buf : List Nat
deriving DecidableEq, Repr

/-- `GameDataReader::records`. -/
def GameDataReader.records (r : GameDataReader) : GameDataReaderRecords :=
  ⟨.chunks r, none, []⟩

/-- `GameDataArchiveReader`: decoded header plus the drained content. -/
structure GameDataArchiveReader where
  header : FileHeader
  content : List Nat
deriving DecidableEq, Repr

/-- `GameDataArchiveReader::open` on the gzip plaintext of the archive file:
read exactly 8 header bytes (an I/O error if the stream is shorter), decode
the `FileHeader` (mapping failure to `decodeArchiveHeader`), then drain the
rest into `content`. -/
def GameDataArchiveReader.open (plaintext : List Nat) :
    Except FloError GameDataArchiveReader :=
  if plaintext.length < 8 then .error .ioErr
  else
    match FileHeader.decode (plaintext.take 8) with
    | .error e => .error e
    | .ok h => .ok ⟨h, plaintext.drop 8⟩

/-- `GameDataArchiveReader::game_id`. -/
def GameDataArchiveReader.game_id (r : GameDataArchiveReader) : Int :=
  r.header.game_id

/-- `GameDataArchiveReader::records`. -/
def GameDataArchiveReader.records (r : GameDataArchiveReader) :
    GameDataReaderRecords :=
  ⟨.content, some 0, r.content⟩

/-- `GameDataReaderRecords::read_next_chunk`: stop when the current chunk is
the last one; otherwise load the next chunk file into the cursor (the
`Content` branch is the source's `unreachable!`, modelled as an I/O error). -/
def readNextChunk (fs : FsState) (s : GameDataReaderRecords) :
    Except FloError (Bool × GameDataReaderRecords) :=
  if s.current_chunk = some s.inner.last_chunk_id then .ok (false, s)
  else
    match s.inner with
    | .content => .error .ioErr
    | .chunks _ =>
        let id := match s.current_chunk with
          | some i => i + 1
          | none => 0
        match readFile fs id with
        | .error e => .error e
        | .ok c => .ok (true, ⟨s.inner, some id, c⟩)

/-- `GameDataReaderRecords::next`: refill the cursor from the next chunk when
it is exhausted, then decode one record from the cursor. -/
def next (fs : FsState) (s : GameDataReaderRecords) :
    Except FloError (Option (GameRecordData × GameDataReaderRecords)) :=
  if s.chunk_buf = [] then
    match readNextChunk fs s with
    | .error e => .error e
    | .ok (false, _) => .ok none
    | .ok (true, s1) =>
        match GameRecordData.decode s1.chunk_buf with
        | .error e => .error e
        | .ok (r, rest) => .ok (some (r, ⟨s1.inner, s1.current_chunk, rest⟩))
  else
    match GameRecordData.decode s.chunk_buf with
    | .error e => .error e
    | .ok (r, rest) => .ok (some (r, ⟨s.inner, s.current_chunk, rest⟩))

/-- Index of the chunk the cursor would load next. -/
def curIdx : Option Nat → Nat
  | none => 0
  | some i => i + 1

/-- Termination measure component: chunks the iterator may still load. -/
def chunkBound (fs : FsState) (s : GameDataReaderRecords) : Nat :=
  match s.inner with
  | .content => 0
  | .chunks _ => maxFileId fs + 2 - curIdx s.current_chunk

theorem lookup_le_maxFileId {fs : FsState} {id : Nat} {c : List Nat}
    (h : fs.chunkFiles.lookup id = some c) : id ≤ maxFileId fs := by
  unfold maxFileId
  obtain ⟨files⟩ := fs
  dsimp only at h ⊢
  suffices haux : ∀ (l : List (Nat × List Nat)) (a : Nat),
      l.lookup id = some c → id ≤ l.foldl (fun m p => max m p.1) a by
    exact haux files 0 h
  intro l
  induction l with
  | nil => intro a ha; simp [List.lookup] at ha
  | cons p t ih =>
      intro a ha
      simp only [List.lookup] at ha
      by_cases hid : id = p.1
      · subst hid
        simp only [List.foldl_cons]
        have : ∀ (l' : List (Nat × List Nat)) (b : Nat),
            b ≤ l'.foldl (fun m p => max m p.1) b := by
          intro l'
          induction l' with
          | nil => intro b; simp
          | cons q t' ih' =>
              intro b
              simp only [List.foldl_cons]
              exact le_trans (le_max_left b q.1) (ih' (max b q.1))
        exact le_trans (le_max_right a p.1) (this t (max a p.1))
      · have hbeq : (id == p.1) = false := beq_false_of_ne hid
        rw [hbeq] at ha
        simp only [List.foldl_cons]
        exact ih (max a p.1) ha

theorem next_decreases {fs : FsState} {s s' : GameDataReaderRecords}
    {r : GameRecordData} (h : next fs s = .ok (some (r, s'))) :
    chunkBound fs s' < chunkBound fs s ∨
      (chunkBound fs s' = chunkBound fs s ∧
        s'.chunk_buf.length < s.chunk_buf.length) := by
  unfold next at h
  by_cases hbuf : s.chunk_buf = []
  · rw [if_pos hbuf] at h
    unfold readNextChunk at h
    by_cases hlast : s.current_chunk = some s.inner.last_chunk_id
    · rw [if_pos hlast] at h
      cases h
    · rw [if_neg hlast] at h
      match hin : s.inner with
      | .content => rw [hin] at h; cases h
      | .chunks rd =>
          rw [hin] at h
          dsimp only at h
          match hrf : readFile fs (match s.current_chunk with
            | some i => i + 1
            | none => 0) with
          | .error e => rw [hrf] at h; cases h
          | .ok c =>
              rw [hrf] at h
              dsimp only at h
              match hdec : GameRecordData.decode c with
              | .error e => rw [hdec] at h; cases h
              | .ok (r0, rest) =>
                  rw [hdec] at h
                  cases h
                  left
                  unfold readFile at hrf
                  match hlk : fs.chunkFiles.lookup (match s.current_chunk with
                    | some i => i + 1
                    | none => 0) with
                  | none => rw [hlk] at hrf; cases hrf
                  | some c0 =>
                      have hle := lookup_le_maxFileId hlk
                      unfold chunkBound
                      rw [hin]
                      rcases hc : s.current_chunk with _ | i
                      · rw [hc] at hle
                        dsimp only at hle ⊢
                        simp only [curIdx]
                        omega
                      · rw [hc] at hle
                        dsimp only at hle ⊢
                        simp only [curIdx]
                        omega
  · rw [if_neg hbuf] at h
    match hdec : GameRecordData.decode s.chunk_buf with
    | .error e => rw [hdec] at h; cases h
    | .ok (r0, rest) =>
        rw [hdec] at h
        cases h
        right
        constructor
        · unfold chunkBound
          cases s.inner <;> rfl
        · exact GameRecordData.decode_length_lt hdec

/-- `GameDataReaderRecords::collect_vec`: drain the iterator into a list. -/
def collectVec (fs : FsState) (s : GameDataReaderRecords) :
    Except FloError (List GameRecordData) :=
  match h : next fs s with
  | .error e => .error e
  | .ok none => .ok []
  | .ok (some (r, s')) =>
      match collectVec fs s' with
      | .error e => .error e
      | .ok rest => .ok (r :: rest)
termination_by (chunkBound fs s, s.chunk_buf.length)
decreasing_by
  rcases next_decreases h with h1 | ⟨h1, h2⟩
  · exact Prod.Lex.left _ _ h1
  · rw [h1]
    exact Prod.Lex.right _ h2

theorem collectVec_next_none {fs : FsState} {s : GameDataReaderRecords}
    (h : next fs s = .ok none) : collectVec fs s = .ok [] := by
  rw [collectVec]
  split
  · rename_i e he
    rw [he] at h
    cases h
  · rfl
  · rename_i r s' hs
    rw [hs] at h
    cases h

theorem collectVec_next_some {fs : FsState} {s s' : GameDataReaderRecords}
    {r : GameRecordData} {t : List GameRecordData}
    (h : next fs s = .ok (some (r, s'))) (hrec : collectVec fs s' = .ok t) :
    collectVec fs s = .ok (r :: t) := by
  rw [collectVec]
  split
  · rename_i e he
    rw [he] at h
    cases h
  · rename_i hn
    rw [hn] at h
    cases h
  · rename_i r0 s0 hs
    rw [hs] at h
    cases h
    rw [hrec]

theorem collectVec_next_error {fs : FsState} {s : GameDataReaderRecords}
    {e : FloError} (h : next fs s = .error e) : collectVec fs s = .error e := by
  rw [collectVec]
  split
  · rename_i e0 he
    rw [he] at h
    cases h
    rfl
  · rename_i hn
    rw [hn] at h
    cases h
  · rename_i r0 s0 hs
    rw [hs] at h
    cases h

theorem next_decode (fs : FsState) (inn : RecordsInner) (cur : Option Nat)
    {buf : List Nat} {r : GameRecordData} {rest : List Nat}
    (hne : buf ≠ []) (h : GameRecordData.decode buf = .ok (r, rest)) :
    next fs ⟨inn, cur, buf⟩ = .ok (some (r, ⟨inn, cur, rest⟩)) := by
  unfold next
  dsimp only
  rw [if_neg hne, h]

theorem next_last (fs : FsState) (inn : RecordsInner) (i : Nat)
    (h : i = inn.last_chunk_id) :
    next fs ⟨inn, some i, []⟩ = .ok none := by
  unfold next readNextChunk
  dsimp only
  rw [if_pos rfl, if_pos (by rw [h])]

theorem next_load (fs : FsState) (rd : GameDataReader) (cur : Option Nat)
    {c : List Nat} {r : GameRecordData} {rest : List Nat}
    (hne : ¬ cur = some (RecordsInner.chunks rd).last_chunk_id)
    (hrf : readFile fs (curIdx cur) = .ok c)
    (hdec : GameRecordData.decode c = .ok (r, rest)) :
    next fs ⟨.chunks rd, cur, []⟩ =
      .ok (some (r, ⟨.chunks rd, some (curIdx cur), rest⟩)) := by
  unfold next readNextChunk
  dsimp only
  rw [if_pos rfl, if_neg hne]
  cases cur with
  | none =>
      dsimp only [curIdx] at hrf ⊢
      rw [hrf]
      dsimp only
      rw [hdec]
  | some i =>
      dsimp only [curIdx] at hrf ⊢
      rw [hrf]
      dsimp only
      rw [hdec]

theorem next_load_error (fs : FsState) (rd : GameDataReader) (cur : Option Nat)
    {e : FloError}
    (hne : ¬ cur = some (RecordsInner.chunks rd).last_chunk_id)
    (hrf : readFile fs (curIdx cur) = .error e) :
    next fs ⟨.chunks rd, cur, []⟩ = .error e := by
  unfold next readNextChunk
  dsimp only
  rw [if_pos rfl, if_neg hne]
  cases cur with
  | none =>
      dsimp only [curIdx] at hrf ⊢
      rw [hrf]
  | some i =>
      dsimp only [curIdx] at hrf ⊢
      rw [hrf]

/-- Draining a cursor that holds the encodings of `g` yields `g` before
whatever the continuation state yields. -/
theorem collect_buf (fs : FsState) (inn : RecordsInner) (cur : Option Nat) :
    ∀ (g t : List GameRecordData),
      (∀ r ∈ g, r.wf) →
      collectVec fs ⟨inn, cur, []⟩ = .ok t →
      collectVec fs ⟨inn, cur, encodeAll g⟩ = .ok (g ++ t) := by
  intro g
  induction g with
  | nil =>
      intro t _ h
      simpa [encodeAll] using h
  | cons r g ih =>
      intro t hwf h
      have hwr : r.wf := hwf r (by simp)
      have hwg : ∀ x ∈ g, x.wf := fun x hx => hwf x (by simp [hx])
      have hnext : next fs ⟨inn, cur, encodeAll (r :: g)⟩ =
          .ok (some (r, ⟨inn, cur, encodeAll g⟩)) := by
        rw [encodeAll_cons]
        refine next_decode fs inn cur ?_ (GameRecordData.decode_encode r hwr (encodeAll g))
        cases hE : r.encode with
        | nil => exact absurd hE r.encode_ne_nil
        | cons a t0 => simp [hE]
      exact collectVec_next_some hnext (ih t hwg h)

/-- Chunk files `chunk_i, chunk_{i+1}, ...` holding the listed contents. -/
def enumFrom (i : Nat) : List (List Nat) → List (Nat × List Nat)
  | [] => []
  | c :: cs => (i, c) :: enumFrom (i + 1) cs

theorem enumFrom_lookup : ∀ (l : List (List Nat)) (i j : Nat),
    (enumFrom i l).lookup (i + j) = l[j]? := by
  intro l
  induction l with
  | nil => intro i j; simp [enumFrom, List.lookup]
  | cons c cs ih =>
      intro i j
      cases j with
      | zero =>
          simp [enumFrom, List.lookup]
      | succ j =>
          have hne : (i + (j + 1) == i) = false := by
            simp only [beq_eq_false_iff_ne, ne_eq]
            omega
          simp only [enumFrom, List.lookup, hne]
          have : i + (j + 1) = (i + 1) + j := by omega
          rw [this, ih (i + 1) j]
          simp

theorem enumFrom_key_lt : ∀ (l : List (List Nat)) (i : Nat) (p : Nat × List Nat),
    p ∈ enumFrom i l → i ≤ p.1 ∧ p.1 < i + l.length := by
  intro l
  induction l with
  | nil => intro i p hp; simp [enumFrom] at hp
  | cons c cs ih =>
      intro i p hp
      simp only [enumFrom, List.mem_cons] at hp
      rcases hp with hp | hp
      · subst hp
        simp only [List.length_cons]
        omega
      · have := ih (i + 1) p hp
        simp only [List.length_cons]
        omega

theorem enumFrom_mem_content : ∀ (l : List (List Nat)) (i : Nat)
    (p : Nat × List Nat), p ∈ enumFrom i l → p.2 ∈ l := by
  intro l
  induction l with
  | nil => intro i p hp; simp [enumFrom] at hp
  | cons c cs ih =>
      intro i p hp
      simp only [enumFrom, List.mem_cons] at hp
      rcases hp with hp | hp
      · subst hp; simp
      · simp [ih (i + 1) p hp]

theorem enumFrom_snoc : ∀ (l : List (List Nat)) (i : Nat) (c : List Nat),
    enumFrom i (l ++ [c]) = enumFrom i l ++ [(i + l.length, c)] := by
  intro l
  induction l with
  | nil => intro i c; simp [enumFrom]
  | cons d ds ih =>
      intro i c
      show (i, d) :: enumFrom (i + 1) (ds ++ [c]) =
        ((i, d) :: enumFrom (i + 1) ds) ++ [(i + (d :: ds).length, c)]
      rw [ih (i + 1) c, List.cons_append]
      have : i + 1 + ds.length = i + (d :: ds).length := by
        simp only [List.length_cons]
        omega
      rw [this]

theorem setFile_enumFrom (l : List (List Nat)) (c : List Nat) :
    setFile (enumFrom 0 l) l.length c = enumFrom 0 (l ++ [c]) := by
  unfold setFile
  have hfilter : (enumFrom 0 l).filter (fun p => !(p.1 == l.length)) = enumFrom 0 l := by
    apply List.filter_eq_self.mpr
    intro p hp
    have hlt := (enumFrom_key_lt l 0 p hp).2
    simp only [Nat.zero_add] at hlt
    simp only [Bool.not_eq_true', beq_eq_false_iff_ne, ne_eq]
    omega
  rw [hfilter, enumFrom_snoc]
  simp

theorem foldl_max_enumFrom : ∀ (l : List (List Nat)) (i a : Nat),
    (enumFrom i l).foldl (fun m p => max m p.1) a =
      if l.length = 0 then a else max a (i + l.length - 1) := by
  intro l
  induction l with
  | nil => intro i a; simp [enumFrom]
  | cons c cs ih =>
      intro i a
      simp only [enumFrom, List.foldl_cons, List.length_cons]
      rw [ih (i + 1) (max a i)]
      by_cases h : cs.length = 0
      · rw [if_pos h, if_neg (by omega)]
        have : i + (cs.length + 1) - 1 = i := by omega
        rw [this]
      · rw [if_neg h, if_neg (by omega)]
        have h1 : i + 1 + cs.length - 1 = i + cs.length := by omega
        have h2 : i + (cs.length + 1) - 1 = i + cs.length := by omega
        rw [h1, h2, max_assoc]
        congr 1
        exact max_eq_right (by omega)

theorem maxFileId_enumFrom {fs : FsState} {m : List (List Nat)}
    (hfs : fs.chunkFiles = enumFrom 0 m) (hne : m ≠ []) :
    maxFileId fs = m.length - 1 := by
  unfold maxFileId
  rw [hfs, foldl_max_enumFrom]
  rw [if_neg (by simpa using List.length_pos_of_ne_nil hne |>.ne')]
  simp

theorem mapM_readFile {fs : FsState} (m : List (List Nat))
    (hfs : fs.chunkFiles = enumFrom 0 m) :
    (List.range m.length).mapM (readFile fs) = .ok m := by
  have haux : ∀ (n i : Nat), i + n = m.length →
      (List.range' i n).mapM (readFile fs) = .ok (m.drop i) := by
    intro n
    induction n with
    | zero =>
        intro i hi
        rw [List.drop_eq_nil_of_le (by omega)]
        rfl
    | succ n ih =>
        intro i hi
        have hil : i < m.length := by omega
        have hread : readFile fs i = .ok (m.get ⟨i, hil⟩) := by
          unfold readFile
          rw [hfs]
          have := enumFrom_lookup m 0 i
          simp only [Nat.zero_add] at this
          rw [this, List.getElem?_eq_getElem hil]
          rfl
        have hdrop : m.drop i = m.get ⟨i, hil⟩ :: m.drop (i + 1) :=
          List.drop_eq_getElem_cons hil
        rw [List.range'_succ, List.mapM_cons, hread, ih (i + 1) (by omega), hdrop]
        rfl
  have := haux m.length 0 (by omega)
  rw [List.range_eq_range']
  simpa using this

/-- Walking the chunk-log iterator over chunks `curIdx cur .. k-1`, each a
nonempty whole-record file, yields the concatenation of their records. -/
theorem collect_from (fs : FsState) (gid : Int) (k : Nat) (hk : 1 ≤ k) :
    ∀ (gss : List (List GameRecordData)) (cur : Option Nat),
      curIdx cur + gss.length = k →
      (∀ (j : Nat) (g : List GameRecordData), gss[j]? = some g →
        g ≠ [] ∧ (∀ r ∈ g, r.wf) ∧
        fs.chunkFiles.lookup (curIdx cur + j) = some (encodeAll g)) →
      collectVec fs ⟨.chunks ⟨gid, k⟩, cur, []⟩ = .ok gss.flatten := by
  intro gss
  induction gss with
  | nil =>
      intro cur hlen _
      simp only [List.length_nil, Nat.add_zero] at hlen
      cases cur with
      | none => simp [curIdx] at hlen; omega
      | some i =>
          simp only [curIdx] at hlen
          apply collectVec_next_none
          apply next_last
          simp only [RecordsInner.last_chunk_id]
          omega
  | cons g gss ih =>
      intro cur hlen hall
      obtain ⟨hgne, hgwf, hglk⟩ := hall 0 g (by simp)
      simp only [Nat.add_zero] at hglk
      have hlast : ¬ cur = some (RecordsInner.chunks ⟨gid, k⟩).last_chunk_id := by
        cases cur with
        | none => simp
        | some i =>
            simp only [RecordsInner.last_chunk_id, Option.some.injEq]
            simp only [curIdx, List.length_cons] at hlen
            omega
      have hrf : readFile fs (curIdx cur) = .ok (encodeAll g) := by
        unfold readFile
        rw [hglk]
      obtain ⟨r, g', rfl⟩ : ∃ r g', g = r :: g' := by
        cases g with
        | nil => exact absurd rfl hgne
        | cons r g' => exact ⟨r, g', rfl⟩
      have hwr : r.wf := hgwf r (by simp)
      have hdec : GameRecordData.decode (encodeAll (r :: g')) = .ok (r, encodeAll g') := by
        rw [encodeAll_cons]
        exact GameRecordData.decode_encode r hwr (encodeAll g')
      have hnext := next_load fs ⟨gid, k⟩ cur hlast hrf hdec
      have hcont : collectVec fs ⟨.chunks ⟨gid, k⟩, some (curIdx cur), []⟩ =
          .ok gss.flatten := by
        apply ih (some (curIdx cur))
        · simp only [curIdx, List.length_cons] at hlen ⊢
          omega
        · intro j g0 hj
          obtain ⟨h1, h2, h3⟩ := hall (j + 1) g0 (by simpa using hj)
          refine ⟨h1, h2, ?_⟩
          have : curIdx (some (curIdx cur)) + j = curIdx cur + (j + 1) := by
            simp only [curIdx]
            omega
          rw [this]
          exact h3
      have hbody := collect_buf fs (.chunks ⟨gid, k⟩) (some (curIdx cur)) g'
        gss.flatten (fun x hx => hgwf x (by simp [hx])) hcont
      have := collectVec_next_some hnext hbody
      simpa using this

/-!
## Writer operation sequences

Reachable writer states are those obtained from `create` by a sequence of
`write_record`, `write_bytes`, `sync_all` and `build_archive` calls.
-/

/-- One writer call. -/
inductive WOp where
  | wrec (r : GameRecordData)
  | wbytes (bs : List Nat)
  | sync
  | barch
deriving Repr

/-- The size checked against `MAX_CHUNK_SIZE` by the call. -/
def WOp.opSize : WOp → Nat
  | .wrec r => r.encode_len
  | .wbytes bs => bs.length
  | .sync => 0
  | .barch => 0

/-- The bytes a call appends to the chunk stream. -/
def opsPayloads (ops : List WOp) : List (List Nat) :=
  ops.filterMap fun op =>
    match op with
    | .wrec r => some r.encode
    | .wbytes bs => some bs
    | .sync => none
    | .barch => none

/-- Run one writer call. -/
def runOp (w : GameDataWriter) (fs : FsState) : WOp →
    Except FloError (GameDataWriter × FsState)
  | .wrec r =>
      match w.write_record fs r with
      | .error e => .error e
      | .ok (_, w', fs') => .ok (w', fs')
  | .wbytes bs =>
      match w.write_bytes fs bs with
      | .error e => .error e
      | .ok (_, w', fs') => .ok (w', fs')
  | .sync => .ok (w.sync_all fs)
  | .barch => w.build_archive fs

/-- Run a sequence of writer calls. -/
def runOps (w : GameDataWriter) (fs : FsState) :
    List WOp → Except FloError (GameDataWriter × FsState)
  | [] => .ok (w, fs)
  | op :: ops =>
      match runOp w fs op with
      | .error e => .error e
      | .ok (w', fs') => runOps w' fs' ops

/-- Invariant of a writer reached from `create`: the promoted chunk files are
`chunk_0 .. chunk_{chunk_id-1}`, each the concatenation of a nonempty group
of consecutive whole call payloads of at most `MAX_CHUNK_SIZE` bytes, and the
in-memory buffer holds the concatenation of the remaining payloads, also at
most `MAX_CHUNK_SIZE` bytes.  `payloads` is the full list of payloads written
so far, in call order. -/
def WriterInv (gid : Int) (payloads : List (List Nat)) (w : GameDataWriter)
    (fs : FsState) : Prop :=
  ∃ (parts : List (List (List Nat))) (cur : List (List Nat)),
    parts.flatten ++ cur = payloads ∧
    w.game_id = gid ∧
    w.chunk_buf = cur.flatten ∧
    w.chunk_id = parts.length ∧
    fs.chunkFiles = enumFrom 0 (parts.map List.flatten) ∧
    (∀ p ∈ parts, p.flatten ≠ [] ∧ p.flatten.length ≤ MAX_CHUNK_SIZE) ∧
    cur.flatten.length ≤ MAX_CHUNK_SIZE

theorem writerInv_create (gid : Int) (fs : FsState)
    (hfs : fs.chunkFiles = []) :
    WriterInv gid [] (GameDataWriter.create gid fs).1
      (GameDataWriter.create gid fs).2 := by
  refine ⟨[], [], ?_⟩
  simp [GameDataWriter.create, enumFrom, hfs, MAX_CHUNK_SIZE]

/-- Appending one payload of size at most `MAX_CHUNK_SIZE` to the buffer,
flushing first when it would overflow, preserves the invariant.  This is the
shared body of `write_record` and `write_bytes`. -/
theorem writerInv_append {gid : Int} {payloads : List (List Nat)}
    {w : GameDataWriter} {fs : FsState} (inv : WriterInv gid payloads w fs)
    (bs : List Nat) (hsz : bs.length ≤ MAX_CHUNK_SIZE) :
    (w.chunk_buf.length + bs.length > MAX_CHUNK_SIZE →
      WriterInv gid (payloads ++ [bs])
        ⟨(w.flush_chunk fs).1.game_id, (w.flush_chunk fs).1.chunk_id,
          (w.flush_chunk fs).1.chunk_buf ++ bs⟩ (w.flush_chunk fs).2) ∧
    (w.chunk_buf.length + bs.length ≤ MAX_CHUNK_SIZE →
      WriterInv gid (payloads ++ [bs])
        ⟨w.game_id, w.chunk_id, w.chunk_buf ++ bs⟩ fs) := by
  obtain ⟨parts, cur, hpay, hgid, hbuf, hcid, hfiles, hparts, hcur⟩ := inv
  constructor
  · intro hover
    have hcurne : w.chunk_buf ≠ [] := by
      intro hnil
      rw [hnil] at hover
      simp at hover
      omega
    unfold GameDataWriter.flush_chunk
    rw [if_neg hcurne]
    dsimp only
    refine ⟨parts ++ [cur], [bs], ?_, hgid, ?_, ?_, ?_, ?_, ?_⟩
    · simp [hpay]
    · simp
    · simp [hcid]
    · rw [hbuf, hcid, hfiles]
      have := setFile_enumFrom (parts.map List.flatten) cur.flatten
      simp only [List.length_map] at this
      rw [this]
      simp
    · intro p hp
      rcases List.mem_append.mp hp with hp | hp
      · exact hparts p hp
      · simp only [List.mem_singleton] at hp
        subst hp
        refine ⟨?_, hcur⟩
        rw [← hbuf]
        exact hcurne
    · simpa using hsz
  · intro hle
    refine ⟨parts, cur ++ [bs], ?_, hgid, ?_, hcid, hfiles, hparts, ?_⟩
    · rw [← hpay]
      simp
    · simp [hbuf]
    · rw [hbuf] at hle
      simpa using hle

theorem write_record_eq (w : GameDataWriter) (fs : FsState)
    (r : GameRecordData) (hsz : r.encode_len ≤ MAX_CHUNK_SIZE) :
    w.write_record fs r =
      if w.chunk_buf.length + r.encode_len > MAX_CHUNK_SIZE then
        .ok (.NewChunk,
          ⟨(w.flush_chunk fs).1.game_id, (w.flush_chunk fs).1.chunk_id,
            (w.flush_chunk fs).1.chunk_buf ++ r.encode⟩, (w.flush_chunk fs).2)
      else
        .ok (.CurrentChunk, ⟨w.game_id, w.chunk_id, w.chunk_buf ++ r.encode⟩, fs) := by
  unfold GameDataWriter.write_record
  rw [if_neg (by omega)]

theorem write_bytes_eq (w : GameDataWriter) (fs : FsState)
    (bs : List Nat) (hsz : bs.length ≤ MAX_CHUNK_SIZE) :
    w.write_bytes fs bs =
      if w.chunk_buf.length + bs.length > MAX_CHUNK_SIZE then
        .ok (.NewChunk,
          ⟨(w.flush_chunk fs).1.game_id, (w.flush_chunk fs).1.chunk_id,
            (w.flush_chunk fs).1.chunk_buf ++ bs⟩, (w.flush_chunk fs).2)
      else
        .ok (.CurrentChunk, ⟨w.game_id, w.chunk_id, w.chunk_buf ++ bs⟩, fs) := by
  unfold GameDataWriter.write_bytes
  rw [if_neg (by omega)]

theorem writerInv_wrec {gid : Int} {payloads : List (List Nat)}
    {w : GameDataWriter} {fs : FsState} (inv : WriterInv gid payloads w fs)
    (r : GameRecordData) (hsz : r.encode_len ≤ MAX_CHUNK_SIZE) :
    ∃ w' fs', runOp w fs (.wrec r) = .ok (w', fs') ∧
      WriterInv gid (payloads ++ [r.encode]) w' fs' := by
  have hsz' : r.encode.length ≤ MAX_CHUNK_SIZE := by
    rw [GameRecordData.encode_length]; exact hsz
  have happ := writerInv_append inv r.encode hsz'
  rw [GameRecordData.encode_length] at happ
  unfold runOp
  dsimp only
  rw [write_record_eq w fs r hsz]
  by_cases hover : w.chunk_buf.length + r.encode_len > MAX_CHUNK_SIZE
  · rw [if_pos hover]
    exact ⟨_, _, rfl, happ.1 hover⟩
  · rw [if_neg hover]
    exact ⟨_, _, rfl, happ.2 (by omega)⟩

theorem writerInv_wbytes {gid : Int} {payloads : List (List Nat)}
    {w : GameDataWriter} {fs : FsState} (inv : WriterInv gid payloads w fs)
    (bs : List Nat) (hsz : bs.length ≤ MAX_CHUNK_SIZE) :
    ∃ w' fs', runOp w fs (.wbytes bs) = .ok (w', fs') ∧
      WriterInv gid (payloads ++ [bs]) w' fs' := by
  have happ := writerInv_append inv bs hsz
  unfold runOp
  dsimp only
  rw [write_bytes_eq w fs bs hsz]
  by_cases hover : w.chunk_buf.length + bs.length > MAX_CHUNK_SIZE
  · rw [if_pos hover]
    exact ⟨_, _, rfl, happ.1 hover⟩
  · rw [if_neg hover]
    exact ⟨_, _, rfl, happ.2 (by omega)⟩

/-- Flushing preserves the invariant, with no new payload. -/
theorem writerInv_flush {gid : Int} {payloads : List (List Nat)}
    {w : GameDataWriter} {fs : FsState} (inv : WriterInv gid payloads w fs) :
    WriterInv gid payloads (w.flush_chunk fs).1 (w.flush_chunk fs).2 ∧
      (w.flush_chunk fs).1.chunk_buf = [] := by
  obtain ⟨parts, cur, hpay, hgid, hbuf, hcid, hfiles, hparts, hcur⟩ := inv
  by_cases hnil : w.chunk_buf = []
  · unfold GameDataWriter.flush_chunk
    rw [if_pos hnil]
    exact ⟨⟨parts, cur, hpay, hgid, hbuf, hcid, hfiles, hparts, hcur⟩, hnil⟩
  · unfold GameDataWriter.flush_chunk
    rw [if_neg hnil]
    refine ⟨⟨parts ++ [cur], [], ?_, hgid, ?_, ?_, ?_, ?_, ?_⟩, rfl⟩
    · simpa using hpay
    · simp
    · simp [hcid]
    · rw [hbuf, hcid, hfiles]
      have := setFile_enumFrom (parts.map List.flatten) cur.flatten
      simp only [List.length_map] at this
      rw [this]
      simp
    · intro p hp
      rcases List.mem_append.mp hp with hp | hp
      · exact hparts p hp
      · simp only [List.mem_singleton] at hp
        subst hp
        refine ⟨?_, hcur⟩
        rw [← hbuf]
        exact hnil
    · simp [MAX_CHUNK_SIZE]

theorem writerInv_sync {gid : Int} {payloads : List (List Nat)}
    {w : GameDataWriter} {fs : FsState} (inv : WriterInv gid payloads w fs) :
    ∃ w' fs', runOp w fs .sync = .ok (w', fs') ∧
      WriterInv gid payloads w' fs' := by
  unfold runOp GameDataWriter.sync_all
  by_cases hnil : w.chunk_buf = []
  · rw [if_pos hnil]
    exact ⟨w, fs, rfl, inv⟩
  · rw [if_neg hnil]
    exact ⟨_, _, rfl, (writerInv_flush inv).1⟩

/-- `build_archive` under the invariant: it succeeds, the final chunk set is
a full flush of the payloads, and the archive plaintext is the header
followed by the chunk bytes in order. -/
theorem build_archive_spec {gid : Int} {payloads : List (List Nat)}
    {w : GameDataWriter} {fs : FsState} (inv : WriterInv gid payloads w fs) :
    ∃ (w' : GameDataWriter) (fs' : FsState)
      (parts : List (List (List Nat))) (cur : List (List Nat)),
      w.build_archive fs = .ok (w', fs') ∧
      parts.flatten ++ cur = payloads ∧
      cur.flatten = [] ∧
      (∀ p ∈ parts, p.flatten ≠ [] ∧ p.flatten.length ≤ MAX_CHUNK_SIZE) ∧
      w'.game_id = gid ∧
      w'.chunk_id = parts.length ∧
      w'.chunk_buf = [] ∧
      fs'.chunkFiles = enumFrom 0 (parts.map List.flatten) ∧
      fs'.archive = some ((FileHeader.new gid).bytes ++
        (parts.map List.flatten).flatten) := by
  obtain ⟨inv', hempty⟩ := writerInv_flush inv
  obtain ⟨parts, cur, hpay, hgid, hbuf, hcid, hfiles, hparts, _⟩ := inv'
  have hcurnil : cur.flatten = [] := by rw [← hbuf, hempty]
  rcases hfl : w.flush_chunk fs with ⟨w1, fs1⟩
  rw [hfl] at hempty hgid hbuf hcid hfiles
  dsimp only at hempty hgid hbuf hcid hfiles
  have hmapm := mapM_readFile (parts.map List.flatten) hfiles
  simp only [List.length_map] at hmapm
  refine ⟨w1, { fs1 with archive := some ((FileHeader.new gid).bytes ++
      (parts.map List.flatten).flatten) }, parts, cur, ?_, hpay, hcurnil, hparts,
    hgid, hcid, hempty, hfiles, rfl⟩
  unfold GameDataWriter.build_archive
  rw [hfl]
  dsimp only
  rw [hcid, hmapm, hgid]

theorem writerInv_barch {gid : Int} {payloads : List (List Nat)}
    {w : GameDataWriter} {fs : FsState} (inv : WriterInv gid payloads w fs) :
    ∃ w' fs', runOp w fs .barch = .ok (w', fs') ∧
      WriterInv gid payloads w' fs' := by
  obtain ⟨w', fs', parts, cur, hrun, hpay, hcurnil, hparts, hgid, hcid, hbuf,
    hfiles, _⟩ := build_archive_spec inv
  exact ⟨w', fs', hrun, parts, cur, hpay, hgid, by rw [hbuf, hcurnil], hcid,
    hfiles, hparts, by simp [hcurnil, MAX_CHUNK_SIZE]⟩

/-- Any sequence of size-respecting writer calls from an invariant state
succeeds and preserves the invariant, extending the payload list. -/
theorem runOps_inv : ∀ (ops : List WOp) {gid : Int} {payloads : List (List Nat)}
    {w : GameDataWriter} {fs : FsState}, WriterInv gid payloads w fs →
    (∀ op ∈ ops, op.opSize ≤ MAX_CHUNK_SIZE) →
    ∃ w' fs', runOps w fs ops = .ok (w', fs') ∧
      WriterInv gid (payloads ++ opsPayloads ops) w' fs' := by
  intro ops
  induction ops with
  | nil =>
      intro gid payloads w fs inv _
      exact ⟨w, fs, rfl, by simpa [opsPayloads] using inv⟩
  | cons op ops ih =>
      intro gid payloads w fs inv hsz
      have hop : op.opSize ≤ MAX_CHUNK_SIZE := hsz op (by simp)
      have hops : ∀ o ∈ ops, o.opSize ≤ MAX_CHUNK_SIZE :=
        fun o ho => hsz o (by simp [ho])
      have hstep : ∃ w1 fs1, runOp w fs op = .ok (w1, fs1) ∧
          WriterInv gid (payloads ++ opsPayloads [op]) w1 fs1 := by
        cases op with
        | wrec r =>
            have := writerInv_wrec inv r hop
            simpa [opsPayloads] using this
        | wbytes bs =>
            have := writerInv_wbytes inv bs hop
            simpa [opsPayloads] using this
        | sync =>
            have := writerInv_sync inv
            simpa [opsPayloads] using this
        | barch =>
            have := writerInv_barch inv
            simpa [opsPayloads] using this
      obtain ⟨w1, fs1, hrun1, inv1⟩ := hstep
      obtain ⟨w2, fs2, hrun2, inv2⟩ := ih inv1 hops
      refine ⟨w2, fs2, ?_, ?_⟩
      · unfold runOps
        rw [hrun1]
        exact hrun2
      · have : payloads ++ opsPayloads [op] ++ opsPayloads ops =
            payloads ++ opsPayloads (op :: ops) := by
          cases op <;> simp [opsPayloads]
        rw [← this]
        exact inv2

theorem map_eq_of_prefix {α β : Type} (f : α → β) (p q : List β) (xs : List α)
    (h : p ++ q = xs.map f) :
    p = (xs.take p.length).map f ∧ q = (xs.drop p.length).map f := by
  constructor
  · have h1 : (p ++ q).take p.length = p := List.take_left p q
    rw [h] at h1
    rw [List.map_take]
    exact h1.symm
  · have h2 : (p ++ q).drop p.length = q := List.drop_left p q
    rw [h] at h2
    rw [List.map_drop]
    exact h2.symm

/-- A partition of a mapped list lifts to a partition of the original list. -/
theorem flatten_parts_of_map {α β : Type} (f : α → β) :
    ∀ (pss : List (List β)) (xs : List α), pss.flatten = xs.map f →
      ∃ xss : List (List α), pss = xss.map (List.map f) ∧ xss.flatten = xs := by
  intro pss
  induction pss with
  | nil =>
      intro xs h
      have hx : xs = [] := by
        cases xs with
        | nil => rfl
        | cons x t => simp at h
      exact ⟨[], by simp, by simp [hx]⟩
  | cons p pss ih =>
      intro xs h
      simp only [List.flatten_cons] at h
      obtain ⟨hp, hq⟩ := map_eq_of_prefix f p pss.flatten xs h
      obtain ⟨xss, h1, h2⟩ := ih (xs.drop p.length) hq
      refine ⟨xs.take p.length :: xss, ?_, ?_⟩
      · simp only [List.map_cons, ← h1, ← hp]
      · simp only [List.flatten_cons, h2]
        exact List.take_append_drop _ xs

theorem cur_nil_of_flatten_nil {cur : List (List Nat)}
    (h : cur.flatten = []) (hmem : ∀ c ∈ cur, c ≠ []) : cur = [] := by
  cases cur with
  | nil => rfl
  | cons c cs =>
      exfalso
      have hc : c = [] := by
        simp only [List.flatten_cons] at h
        exact (List.append_eq_nil.mp h).1
      exact hmem c (by simp) hc

theorem encodeAll_flatten (gss : List (List GameRecordData)) :
    (gss.map encodeAll).flatten = encodeAll gss.flatten := by
  induction gss with
  | nil => rfl
  | cons g gss ih =>
      simp only [List.map_cons, List.flatten_cons, ih, encodeAll,
        List.map_append, List.flatten_append]

/-!
## The progress cache (cache.rs)

The external KV store is modelled by `RedisState`: the
`flo_observer:games` set and the per-game hashes
`flo_observer:game:<game_id>` with their two fields.  Each cache operation
is also described by the exact sequence of round-trips it issues
(`RedisRoundTrip`), a single command or an atomic pipeline.
-/

/-- A value sent to the KV store: a string or raw bytes. -/
inductive RedisArg where
  | str (s : String)
  | bytes (b : List Nat)
deriving DecidableEq, Repr

/-- The commands the cache issues. -/
inductive RedisCmd where
  | sadd (key : String) (member : RedisArg)
  | srem (key : String) (member : RedisArg)
  | del (key : String)
  | hset (key : String) (field : String) (value : RedisArg)
  | hget (key : String) (field : String)
  | hmget (key : String) (fields : List String)
  | smembers (key : String)
deriving DecidableEq, Repr

/-- One KV round-trip: a single command or an atomic pipeline. -/
inductive RedisRoundTrip where
  | single (c : RedisCmd)
  | pipelineAtomic (cs : List RedisCmd)
deriving DecidableEq, Repr

/-- `Cache::GAME_SET_KEY`. -/
def GAME_SET_KEY : String := "flo_observer:games"

/-- The per-game hash key `flo_observer:game:<game_id>`. -/
def gameHashKey (game_id : Int) : String :=
  "flo_observer:game:" ++ toString game_id

/-- The round-trips `Cache::remove_game` issues, in order: a standalone
`SREM`, then an atomic `SREM` + `DEL` pipeline. -/
def remove_game_trips (game_id : Int) : List RedisRoundTrip :=
  [ .single (.srem GAME_SET_KEY (.bytes (i32leBytes game_id))),
    .pipelineAtomic
      [ .srem GAME_SET_KEY (.bytes (i32leBytes game_id)),
        .del (gameHashKey game_id) ] ]

/-- The fields of one `flo_observer:game:<id>` hash: `shard_id` is written
as a string, `finished_seq_id` as raw bytes. -/
structure GameHash where
  shard_id : Option String
  finished_seq_id : Option (List Nat)
deriving DecidableEq, Repr

/-- The KV state the cache's game operations touch. -/
structure RedisState where
  games : List (List Nat)
  gameHashes : List (Int × GameHash)
deriving DecidableEq, Repr

/-- Read a game hash (`HMGET` semantics: a missing key reads as all-nil). -/
def RedisState.getHash (st : RedisState) (game_id : Int) : GameHash :=
  (st.gameHashes.lookup game_id).getD ⟨none, none⟩

/-- Bind a game hash key to a value. -/
def RedisState.setHash (st : RedisState) (game_id : Int) (h : GameHash) :
    RedisState :=
  { st with gameHashes :=
      st.gameHashes.filter (fun p => !(p.1 == game_id)) ++ [(game_id, h)] }

/-- `Cache::add_game`: atomic pipeline of `SADD games id_le` and
`HSET game:id shard_id shard`. -/
def add_game (st : RedisState) (game_id : Int) (shard_id : String) :
    RedisState :=
  let m := i32leBytes game_id
  let st1 : RedisState :=
    { st with games := if st.games.contains m then st.games else st.games ++ [m] }
  st1.setHash game_id { st1.getHash game_id with shard_id := some shard_id }

/-- `Cache::set_game_finished_seq_id`: `HSET game:id finished_seq_id v_le`. -/
def set_game_finished_seq_id (st : RedisState) (game_id : Int) (value : Nat) :
    RedisState :=
  st.setHash game_id
    { st.getHash game_id with finished_seq_id := some (u32leBytes value) }

/-- `CacheGameState` from cache.rs. -/
structure CacheGameState where
  id : Int
  shard_id : String
  finished_seq_id : Nat
deriving DecidableEq, Repr

/-- `Cache::get_game_state`: `HMGET game:id shard_id finished_seq_id`;
`Some` exactly when `shard_id` is present and `finished_seq_id` is present
with exactly 4 bytes, which are read as a little-endian `u32`. -/
def get_game_state (st : RedisState) (game_id : Int) : Option CacheGameState :=
  let h := st.getHash game_id
  match h.shard_id, h.finished_seq_id with
  | some shard, some bytes =>
      match bytes with
      | [b0, b1, b2, b3] => some ⟨game_id, shard, u32leValue b0 b1 b2 b3⟩
      | _ => none
  | _, _ => none

/-- The net state effect of `Cache::remove_game`: the standalone `SREM`,
then the pipeline's `SREM` and `DEL`, applied in order. -/
def remove_game (st : RedisState) (game_id : Int) : RedisState :=
  let m := i32leBytes game_id
  let st1 : RedisState :=
    { st with games := st.games.filter (fun x => !(x == m)) }
  let st2 : RedisState :=
    { st1 with games := st1.games.filter (fun x => !(x == m)) }
  { st2 with gameHashes := st2.gameHashes.filter (fun p => !(p.1 == game_id)) }

theorem lookup_filter_ne {l : List (Int × GameHash)} {gid : Int} :
    (l.filter (fun p => !(p.1 == gid))).lookup gid = none := by
  induction l with
  | nil => rfl
  | cons p t ih =>
      by_cases h : p.1 = gid
      · simp only [List.filter_cons, h, beq_self_eq_true, Bool.not_true]
        exact ih
      · have hb : (p.1 == gid) = false := beq_false_of_ne h
        simp only [List.filter_cons, hb, Bool.not_false]
        simp only [List.lookup]
        have : (gid == p.1) = false := beq_false_of_ne (fun he => h he.symm)
        rw [this]
        exact ih

theorem lookup_append_of_none {l1 l2 : List (Int × GameHash)} {gid : Int}
    (h : l1.lookup gid = none) : (l1 ++ l2).lookup gid = l2.lookup gid := by
  induction l1 with
  | nil => simp
  | cons p t ih =>
      simp only [List.lookup, List.cons_append] at h ⊢
      cases hb : (gid == p.1) with
      | true => rw [hb] at h; cases h
      | false =>
          rw [hb] at h
          exact ih h

theorem getHash_setHash (st : RedisState) (gid : Int) (h : GameHash) :
    (st.setHash gid h).getHash gid = h := by
  unfold RedisState.setHash RedisState.getHash
  dsimp only
  rw [lookup_append_of_none lookup_filter_ne]
  simp [List.lookup]

/-!  Remaining helper lemmas for the claim theorems. -/

theorem opsPayloads_map_wrec (rs : List GameRecordData) :
    opsPayloads (rs.map WOp.wrec) = rs.map GameRecordData.encode := by
  induction rs with
  | nil => rfl
  | cons r t ih =>
      simp only [List.map_cons, opsPayloads, List.filterMap_cons] at ih ⊢
      rw [ih]

theorem le_foldl_max (l : List Nat) : ∀ a : Nat, a ≤ l.foldl max a := by
  induction l with
  | nil => intro a; simp
  | cons c t ih =>
      intro a
      simp only [List.foldl_cons]
      exact le_trans (le_max_left a c) (ih (max a c))

theorem foldl_max_le (l : List Nat) : ∀ (a x : Nat), x ∈ l → x ≤ l.foldl max a := by
  induction l with
  | nil => intro a x hx; simp at hx
  | cons c t ih =>
      intro a x hx
      simp only [List.foldl_cons]
      rcases List.mem_cons.mp hx with hx | hx
      · subst hx
        exact le_trans (le_max_right a x) (le_foldl_max t (max a x))
      · exact ih (max a c) x hx

theorem foldl_max_mem (l : List Nat) : ∀ a : Nat,
    l.foldl max a = a ∨ l.foldl max a ∈ l := by
  induction l with
  | nil => intro a; left; rfl
  | cons c t ih =>
      intro a
      simp only [List.foldl_cons]
      rcases ih (max a c) with h | h
      · rw [h]
        rcases max_choice a c with hm | hm
        · left; exact hm
        · right; rw [hm]; simp
      · right
        exact List.mem_cons_of_mem c h

theorem maxFileId_map_fst (fs : FsState) :
    maxFileId fs = (fs.chunkFiles.map Prod.fst).foldl max 0 := by
  unfold maxFileId
  rw [List.foldl_map]

/-- Opening an archive plaintext that starts with a well-signed 8-byte
header. -/
theorem archive_open_cons (s0 s1 s2 s3 b0 b1 b2 b3 : Nat) (rest : List Nat)
    (hsig : [s0, s1, s2, s3] = SIGNATURE) :
    GameDataArchiveReader.open
        (s0 :: s1 :: s2 :: s3 :: b0 :: b1 :: b2 :: b3 :: rest) =
      .ok ⟨⟨[s0, s1, s2, s3], i32ofU32 (u32leValue b0 b1 b2 b3)⟩, rest⟩ := by
  unfold GameDataArchiveReader.open
  rw [if_neg (by simp)]
  have hdec : FileHeader.decode
      ((s0 :: s1 :: s2 :: s3 :: b0 :: b1 :: b2 :: b3 :: rest).take 8) =
      .ok ⟨[s0, s1, s2, s3], i32ofU32 (u32leValue b0 b1 b2 b3)⟩ := by
    show FileHeader.decode [s0, s1, s2, s3, b0, b1, b2, b3] = _
    unfold FileHeader.decode
    dsimp only
    rw [if_pos hsig]
  rw [hdec]
  rfl

/-- Opening an archive plaintext built from `FileHeader::new(gid).bytes()`
succeeds and recovers `gid`. -/
theorem archive_open_header (gid : Int) (rest : List Nat)
    (hlo : -(2 ^ 31) ≤ gid) (hhi : gid < 2 ^ 31) :
    GameDataArchiveReader.open ((FileHeader.new gid).bytes ++ rest) =
      .ok ⟨⟨SIGNATURE, gid⟩, rest⟩ := by
  have hb : (FileHeader.new gid).bytes ++ rest =
      0x66 :: 0x6C :: 0x6F :: 0x01 ::
      ((gid % (2 ^ 32 : Int)).toNat % 256) ::
      ((gid % (2 ^ 32 : Int)).toNat / 256 % 256) ::
      ((gid % (2 ^ 32 : Int)).toNat / 65536 % 256) ::
      ((gid % (2 ^ 32 : Int)).toNat / 16777216 % 256) :: rest := rfl
  rw [hb, archive_open_cons _ _ _ _ _ _ _ _ rest rfl, i32le_round gid hlo hhi]
  rfl

/-- The terminal state of a content-mode iterator yields `none`. -/
theorem next_content_end (fs : FsState) :
    next fs ⟨.content, some 0, []⟩ = .ok none :=
  next_last fs .content 0 rfl

theorem flush_chunk_game_id (w : GameDataWriter) (fs : FsState) :
    (w.flush_chunk fs).1.game_id = w.game_id := by
  unfold GameDataWriter.flush_chunk
  by_cases h : w.chunk_buf = []
  · rw [if_pos h]
  · rw [if_neg h]

theorem flush_chunk_archive (w : GameDataWriter) (fs : FsState)
    (o : Option (List Nat)) :
    w.flush_chunk { fs with archive := o } =
      ((w.flush_chunk fs).1, { (w.flush_chunk fs).2 with archive := o }) := by
  unfold GameDataWriter.flush_chunk
  by_cases h : w.chunk_buf = []
  · rw [if_pos h, if_pos h]
  · rw [if_neg h, if_neg h]

/-- `build_archive` never reads `archive.gz`: its outcome is independent of
any existing archive file. -/
theorem build_archive_archive_indep (w : GameDataWriter) (fs : FsState)
    (o : Option (List Nat)) :
    w.build_archive { fs with archive := o } = w.build_archive fs := by
  unfold GameDataWriter.build_archive
  rw [flush_chunk_archive]
  rcases hfl : w.flush_chunk fs with ⟨w1, fs1⟩
  rfl

/-!
## Claim theorems
-/

/-- Claim C1, amended: for every NONEMPTY sequence of well-formed records
each of whose encoded sizes is at most 4096 bytes, written in order to a
fresh writer (`create`) and finalized with `build_archive`, the chunk-log
reader (`GameDataReader::open` then `records`) and the archive reader
(`GameDataArchiveReader::open` on the produced archive, then `records`)
both yield exactly that sequence in write order, and the archive reader's
`game_id()` equals the writer's `game_id`.  (The original claim also covered
the empty sequence, where the chunk-log reader instead fails with an I/O
error; see the counterexample.) -/
theorem C1_round_trip_nonempty (gid : Int) (rs : List GameRecordData)
    (hne : rs ≠ []) (hwf : ∀ r ∈ rs, r.wf ∧ r.encode_len ≤ MAX_CHUNK_SIZE)
    (hlo : -(2 ^ 31) ≤ gid) (hhi : gid < 2 ^ 31) :
    ∃ (w1 : GameDataWriter) (fs1 : FsState) (w2 : GameDataWriter)
      (fs2 : FsState) (pt : List Nat) (ar : GameDataArchiveReader),
      runOps (GameDataWriter.create gid emptyFs).1
        (GameDataWriter.create gid emptyFs).2 (rs.map WOp.wrec) =
        .ok (w1, fs1) ∧
      w1.build_archive fs1 = .ok (w2, fs2) ∧
      collectVec fs2 (GameDataReader.open gid fs2).records = .ok rs ∧
      fs2.archive = some pt ∧
      GameDataArchiveReader.open pt = .ok ar ∧
      ar.game_id = gid ∧
      collectVec fs2 ar.records = .ok rs := by
  have inv0 := writerInv_create gid emptyFs rfl
  have hsz : ∀ op ∈ rs.map WOp.wrec, op.opSize ≤ MAX_CHUNK_SIZE := by
    intro op hop
    obtain ⟨r, hr, rfl⟩ := List.mem_map.mp hop
    exact (hwf r hr).2
  obtain ⟨w1, fs1, hrun, inv1⟩ := runOps_inv (rs.map WOp.wrec) inv0 hsz
  rw [opsPayloads_map_wrec, List.nil_append] at inv1
  obtain ⟨w2, fs2, parts, cur, hba, hpay, hcurnil, hparts, hgid2, hcid2, hbuf2,
    hfiles2, harch⟩ := build_archive_spec inv1
  have hcur : cur = [] := by
    apply cur_nil_of_flatten_nil hcurnil
    intro c hc
    have hcm : c ∈ rs.map GameRecordData.encode := by
      rw [← hpay]
      exact List.mem_append.mpr (Or.inr hc)
    obtain ⟨r, _, rfl⟩ := List.mem_map.mp hcm
    exact r.encode_ne_nil
  rw [hcur, List.append_nil] at hpay
  obtain ⟨gss, hgss, hflat⟩ :=
    flatten_parts_of_map GameRecordData.encode parts rs hpay
  have hchunks : parts.map List.flatten = gss.map encodeAll := by
    rw [hgss, List.map_map]
    rfl
  have hpne : parts ≠ [] := by
    intro hp
    rw [hp] at hpay
    cases rs with
    | nil => exact hne rfl
    | cons r t => simp at hpay
  have hk1 : 1 ≤ parts.length := List.length_pos.mpr hpne
  have hglen : gss.length = parts.length := by rw [hgss, List.length_map]
  have hmfne : parts.map List.flatten ≠ [] := by simpa using hpne
  have hmax : maxFileId fs2 = parts.length - 1 := by
    have := maxFileId_enumFrom hfiles2 hmfne
    simpa using this
  have hopen : GameDataReader.open gid fs2 = ⟨gid, parts.length⟩ := by
    show (⟨gid, maxFileId fs2 + 1⟩ : GameDataReader) = _
    rw [hmax]
    congr 1
    omega
  have hlen : curIdx none + gss.length = parts.length := by
    simp [curIdx, hglen]
  have hall : ∀ (j : Nat) (g : List GameRecordData), gss[j]? = some g →
      g ≠ [] ∧ (∀ r ∈ g, r.wf) ∧
      fs2.chunkFiles.lookup (curIdx none + j) = some (encodeAll g) := by
    intro j g hj
    have hgmem : g ∈ gss := List.getElem?_mem hj
    refine ⟨?_, ?_, ?_⟩
    · intro hgnil
      have hpmem : (g.map GameRecordData.encode) ∈ parts := by
        rw [hgss]
        exact List.mem_map_of_mem _ hgmem
      have hnonempty := (hparts _ hpmem).1
      rw [hgnil] at hnonempty
      exact hnonempty rfl
    · intro r hr
      exact (hwf r (by rw [← hflat]; exact List.mem_flatten.mpr ⟨g, hgmem, hr⟩)).1
    · have hzero : curIdx none + j = j := by simp [curIdx]
      rw [hzero, hfiles2, hchunks]
      have hlkp := enumFrom_lookup (gss.map encodeAll) 0 j
      simp only [Nat.zero_add] at hlkp
      rw [hlkp, List.getElem?_map, hj]
      rfl
  have hcollect1 : collectVec fs2 (GameDataReader.open gid fs2).records = .ok rs := by
    rw [hopen]
    show collectVec fs2 ⟨.chunks ⟨gid, parts.length⟩, none, []⟩ = .ok rs
    have := collect_from fs2 gid parts.length hk1 gss none hlen hall
    rw [hflat] at this
    exact this
  have hptflat : (parts.map List.flatten).flatten = encodeAll rs := by
    rw [hchunks, encodeAll_flatten, hflat]
  rw [hptflat] at harch
  have hopenar := archive_open_header gid (encodeAll rs) hlo hhi
  refine ⟨w1, fs1, w2, fs2, (FileHeader.new gid).bytes ++ encodeAll rs,
    ⟨⟨SIGNATURE, gid⟩, encodeAll rs⟩, hrun, hba, hcollect1, harch, hopenar,
    rfl, ?_⟩
  show collectVec fs2 ⟨.content, some 0, encodeAll rs⟩ = .ok rs
  have hend : collectVec fs2 ⟨.content, some 0, []⟩ = .ok [] :=
    collectVec_next_none (next_content_end fs2)
  have := collect_buf fs2 .content (some 0) rs [] (fun r hr => (hwf r hr).1) hend
  simpa using this

/-- Claim C1, counterexample: with the EMPTY record sequence, `create` then
`build_archive` leaves a directory with no promoted chunks; the chunk-log
reader does not yield the empty sequence but fails with an I/O error, because
`open` sets `next_chunk_id = 1` and the iterator tries to read the missing
`chunk_0`. -/
theorem C1_counterexample :
    runOps (GameDataWriter.create 1 emptyFs).1 (GameDataWriter.create 1 emptyFs).2
      (([] : List GameRecordData).map WOp.wrec) =
      .ok (⟨1, 0, []⟩, ⟨[], [], none⟩) ∧
    GameDataWriter.build_archive ⟨1, 0, []⟩ ⟨[], [], none⟩ =
      .ok (⟨1, 0, []⟩, ⟨[], [], some (FileHeader.new 1).bytes⟩) ∧
    collectVec ⟨[], [], some (FileHeader.new 1).bytes⟩
        (GameDataReader.open 1 ⟨[], [], some (FileHeader.new 1).bytes⟩).records =
      .error .ioErr ∧
    collectVec ⟨[], [], some (FileHeader.new 1).bytes⟩
        (GameDataReader.open 1 ⟨[], [], some (FileHeader.new 1).bytes⟩).records ≠
      .ok ([] : List GameRecordData) := by
  have herr : collectVec ⟨[], [], some (FileHeader.new 1).bytes⟩
      (GameDataReader.open 1 ⟨[], [], some (FileHeader.new 1).bytes⟩).records =
      .error .ioErr := by
    apply collectVec_next_error
    show next _ ⟨.chunks ⟨1, 1⟩, none, []⟩ = .error .ioErr
    apply next_load_error _ ⟨1, 1⟩ none (by simp)
    rfl
  refine ⟨rfl, rfl, herr, ?_⟩
  rw [herr]
  intro hcontra
  exact Except.noConfusion hcontra

/-- Claim C1, witness for the amended theorem at a concrete input. -/
theorem C1_witness :
    ∃ (w1 : GameDataWriter) (fs1 : FsState) (w2 : GameDataWriter)
      (fs2 : FsState) (pt : List Nat) (ar : GameDataArchiveReader),
      runOps (GameDataWriter.create 7 emptyFs).1
        (GameDataWriter.create 7 emptyFs).2
        ([GameRecordData.stopLag 1, GameRecordData.chat [2, 3]].map WOp.wrec) =
        .ok (w1, fs1) ∧
      w1.build_archive fs1 = .ok (w2, fs2) ∧
      collectVec fs2 (GameDataReader.open 7 fs2).records =
        .ok [GameRecordData.stopLag 1, GameRecordData.chat [2, 3]] ∧
      fs2.archive = some pt ∧
      GameDataArchiveReader.open pt = .ok ar ∧
      ar.game_id = 7 ∧
      collectVec fs2 ar.records =
        .ok [GameRecordData.stopLag 1, GameRecordData.chat [2, 3]] :=
  C1_round_trip_nonempty 7 [GameRecordData.stopLag 1, GameRecordData.chat [2, 3]]
    (by decide) (by decide) (by decide) (by decide)

/-- Claim C2 (confirmed): for every sequence of `write_record` / `write_bytes`
calls whose individual sizes are at most `MAX_CHUNK_SIZE = 4096`, every
promoted chunk file is at most 4096 bytes long and no call's bytes are split
across two chunk files (the chunk files partition the payloads into
consecutive whole groups, the buffer holding the trailing group); moreover a
write flushes the current buffer into a new promoted chunk before appending
exactly when the buffered length plus the new encoding's length would exceed
4096. -/
theorem C2_chunk_bounds (gid : Int) (ops : List WOp)
    (hsz : ∀ op ∈ ops, op.opSize ≤ MAX_CHUNK_SIZE) :
    (∃ (w : GameDataWriter) (fs : FsState),
      runOps (GameDataWriter.create gid emptyFs).1
        (GameDataWriter.create gid emptyFs).2 ops = .ok (w, fs) ∧
      (∀ pc ∈ fs.chunkFiles, pc.2.length ≤ MAX_CHUNK_SIZE) ∧
      (∃ (parts : List (List (List Nat))) (cur : List (List Nat)),
        parts.flatten ++ cur = opsPayloads ops ∧
        fs.chunkFiles = enumFrom 0 (parts.map List.flatten) ∧
        w.chunk_buf = cur.flatten)) ∧
    (∀ (w : GameDataWriter) (fs : FsState) (r : GameRecordData),
      r.encode_len ≤ MAX_CHUNK_SIZE →
      (w.chunk_buf.length + r.encode_len > MAX_CHUNK_SIZE →
        w.write_record fs r = .ok (.NewChunk,
          ⟨w.game_id, w.chunk_id + 1, r.encode⟩,
          { fs with chunkFiles := setFile fs.chunkFiles w.chunk_id w.chunk_buf,
                    scratch := [] })) ∧
      (w.chunk_buf.length + r.encode_len ≤ MAX_CHUNK_SIZE →
        w.write_record fs r = .ok (.CurrentChunk,
          ⟨w.game_id, w.chunk_id, w.chunk_buf ++ r.encode⟩, fs))) := by
  constructor
  · obtain ⟨w, fs, hrun, inv⟩ :=
      runOps_inv ops (writerInv_create gid emptyFs rfl) hsz
    obtain ⟨parts, cur, hpay, _, hbuf, _, hfiles, hparts, _⟩ := inv
    rw [List.nil_append] at hpay
    refine ⟨w, fs, hrun, ?_, parts, cur, hpay, hfiles, hbuf⟩
    intro pc hpc
    rw [hfiles] at hpc
    have hmem := enumFrom_mem_content _ _ _ hpc
    obtain ⟨p, hp, hpeq⟩ := List.mem_map.mp hmem
    rw [← hpeq]
    exact (hparts p hp).2
  · intro w fs r hr
    constructor
    · intro hover
      rw [write_record_eq w fs r hr, if_pos hover]
      have hbufne : w.chunk_buf ≠ [] := by
        intro hnil
        rw [hnil] at hover
        simp at hover
        omega
      unfold GameDataWriter.flush_chunk
      rw [if_neg hbufne]
      rfl
    · intro hle
      rw [write_record_eq w fs r hr, if_neg (by omega)]

/-- Claim C2, witness at a concrete call sequence. -/
theorem C2_witness :
    (∃ (w : GameDataWriter) (fs : FsState),
      runOps (GameDataWriter.create 1 emptyFs).1
        (GameDataWriter.create 1 emptyFs).2
        [WOp.wrec (GameRecordData.stopLag 2), WOp.wbytes [7, 8], WOp.sync] =
        .ok (w, fs) ∧
      (∀ pc ∈ fs.chunkFiles, pc.2.length ≤ MAX_CHUNK_SIZE) ∧
      (∃ (parts : List (List (List Nat))) (cur : List (List Nat)),
        parts.flatten ++ cur =
          opsPayloads [WOp.wrec (GameRecordData.stopLag 2), WOp.wbytes [7, 8],
            WOp.sync] ∧
        fs.chunkFiles = enumFrom 0 (parts.map List.flatten) ∧
        w.chunk_buf = cur.flatten)) ∧
    (∀ (w : GameDataWriter) (fs : FsState) (r : GameRecordData),
      r.encode_len ≤ MAX_CHUNK_SIZE →
      (w.chunk_buf.length + r.encode_len > MAX_CHUNK_SIZE →
        w.write_record fs r = .ok (.NewChunk,
          ⟨w.game_id, w.chunk_id + 1, r.encode⟩,
          { fs with chunkFiles := setFile fs.chunkFiles w.chunk_id w.chunk_buf,
                    scratch := [] })) ∧
      (w.chunk_buf.length + r.encode_len ≤ MAX_CHUNK_SIZE →
        w.write_record fs r = .ok (.CurrentChunk,
          ⟨w.game_id, w.chunk_id, w.chunk_buf ++ r.encode⟩, fs))) :=
  C2_chunk_bounds 1
    [WOp.wrec (GameRecordData.stopLag 2), WOp.wbytes [7, 8], WOp.sync]
    (by decide)

/-- Claim C9 (confirmed): `flush_chunk` returns without promoting when the
buffer is empty, and every promoted chunk file a writer produces from
`create` through any sequence of `write_record`, `write_bytes`, `sync_all`
and `build_archive` calls is nonempty. -/
theorem C9_chunks_nonempty (gid : Int) (ops : List WOp)
    (hsz : ∀ op ∈ ops, op.opSize ≤ MAX_CHUNK_SIZE) :
    (∀ (w : GameDataWriter) (fs : FsState), w.chunk_buf = [] →
      w.flush_chunk fs = (w, fs)) ∧
    (∀ (w : GameDataWriter) (fs : FsState),
      runOps (GameDataWriter.create gid emptyFs).1
        (GameDataWriter.create gid emptyFs).2 ops = .ok (w, fs) →
      ∀ pc ∈ fs.chunkFiles, pc.2 ≠ []) := by
  constructor
  · intro w fs h
    unfold GameDataWriter.flush_chunk
    rw [if_pos h]
  · intro w fs hrun pc hpc
    obtain ⟨w', fs', hrun', inv⟩ :=
      runOps_inv ops (writerInv_create gid emptyFs rfl) hsz
    rw [hrun'] at hrun
    cases hrun
    obtain ⟨parts, cur, _, _, _, _, hfiles, hparts, _⟩ := inv
    rw [hfiles] at hpc
    have hmem := enumFrom_mem_content _ _ _ hpc
    obtain ⟨p, hp, hpeq⟩ := List.mem_map.mp hmem
    rw [← hpeq]
    exact (hparts p hp).1

/-- Claim C9, witness at a concrete call sequence. -/
theorem C9_witness :
    (∀ (w : GameDataWriter) (fs : FsState), w.chunk_buf = [] →
      w.flush_chunk fs = (w, fs)) ∧
    (∀ (w : GameDataWriter) (fs : FsState),
      runOps (GameDataWriter.create 1 emptyFs).1
        (GameDataWriter.create 1 emptyFs).2
        [WOp.wrec (GameRecordData.stopLag 2), WOp.sync, WOp.barch] =
        .ok (w, fs) →
      ∀ pc ∈ fs.chunkFiles, pc.2 ≠ []) :=
  C9_chunks_nonempty 1
    [WOp.wrec (GameRecordData.stopLag 2), WOp.sync, WOp.barch] (by decide)

/-- Claim C3, amended: `recover(game_id)` always sets the writer's
`chunk_id` to `maxFileId + 1`, where `maxFileId` is the directory scan's
fold starting at 0.  When the directory contains at least one promoted
chunk this equals `max(existing chunk ids) + 1` (the fold attains a chunk
id that bounds all others); when it contains none, `chunk_id = 1`, NOT 0 as
the original claim stated. -/
theorem C3_recover_next_chunk_id (gid : Int) (fs : FsState) :
    (GameDataWriter.recover gid fs).1.chunk_id = maxFileId fs + 1 ∧
    (fs.chunkFiles ≠ [] →
      maxFileId fs ∈ fs.chunkFiles.map Prod.fst ∧
      ∀ i ∈ fs.chunkFiles.map Prod.fst, i ≤ maxFileId fs) ∧
    (fs.chunkFiles = [] → (GameDataWriter.recover gid fs).1.chunk_id = 1) := by
  refine ⟨rfl, ?_, ?_⟩
  · intro hne
    have hlne : fs.chunkFiles.map Prod.fst ≠ [] := by simpa using hne
    rw [maxFileId_map_fst]
    constructor
    · rcases foldl_max_mem (fs.chunkFiles.map Prod.fst) 0 with h0 | hm
      · obtain ⟨x, hx⟩ := List.exists_mem_of_ne_nil _ hlne
        have hxle := foldl_max_le (fs.chunkFiles.map Prod.fst) 0 x hx
        rw [h0] at hxle ⊢
        have : x = 0 := by omega
        rw [← this]
        exact hx
      · exact hm
    · intro i hi
      exact foldl_max_le _ 0 i hi
  · intro hnil
    show maxFileId fs + 1 = 1
    unfold maxFileId
    rw [hnil]
    rfl

/-- Claim C3, counterexample: on a directory that exists but contains no
promoted chunk files, `recover` sets `chunk_id` to 1, not 0 as claimed
(`GameDataReader::open` starts its fold at `max_chunk_id = 0` and returns
`max + 1` even when nothing matched). -/
theorem C3_counterexample :
    (GameDataWriter.recover 1 ⟨[], [], none⟩).1.chunk_id = 1 ∧
    (GameDataWriter.recover 1 ⟨[], [], none⟩).1.chunk_id ≠ 0 :=
  ⟨rfl, by decide⟩

/-- Claim C3, witness for the amended theorem at a concrete directory. -/
theorem C3_witness :
    (GameDataWriter.recover 1 ⟨[(0, [1]), (2, [2, 3])], [], none⟩).1.chunk_id =
      maxFileId ⟨[(0, [1]), (2, [2, 3])], [], none⟩ + 1 ∧
    (maxFileId ⟨[(0, [1]), (2, [2, 3])], [], none⟩ ∈
      (⟨[(0, [1]), (2, [2, 3])], [], none⟩ : FsState).chunkFiles.map Prod.fst ∧
      ∀ i ∈ (⟨[(0, [1]), (2, [2, 3])], [], none⟩ : FsState).chunkFiles.map Prod.fst,
        i ≤ maxFileId ⟨[(0, [1]), (2, [2, 3])], [], none⟩) :=
  ⟨(C3_recover_next_chunk_id 1 _).1,
    (C3_recover_next_chunk_id 1 ⟨[(0, [1]), (2, [2, 3])], [], none⟩).2.1
      (by decide)⟩

/-- Claim C4, amended: opening a `GameDataReader` on an existing game
directory with no promoted chunk files and iterating its records does NOT
yield an empty stream: the first `next()` fails with an I/O error, because
`open` sets `next_chunk_id = 1` and the iterator attempts to read the
missing `chunk_0`. -/
theorem C4_empty_dir_read_fails (gid : Int) (fs : FsState)
    (h : fs.chunkFiles = []) :
    next fs (GameDataReader.open gid fs).records = .error .ioErr := by
  have hopen : GameDataReader.open gid fs = ⟨gid, 1⟩ := by
    unfold GameDataReader.open
    rw [h]
    rfl
  rw [hopen]
  show next fs ⟨.chunks ⟨gid, 1⟩, none, []⟩ = .error .ioErr
  apply next_load_error fs ⟨gid, 1⟩ none (by simp)
  show readFile fs 0 = .error .ioErr
  unfold readFile
  rw [h]
  rfl

/-- Claim C4, counterexample: on the concrete empty directory the first
`next()` returns an I/O error, not `None`. -/
theorem C4_counterexample :
    next ⟨[], [], none⟩ (GameDataReader.open 1 ⟨[], [], none⟩).records =
      .error .ioErr ∧
    next ⟨[], [], none⟩ (GameDataReader.open 1 ⟨[], [], none⟩).records ≠
      .ok none := by
  constructor
  · rfl
  · intro hcontra
    exact Except.noConfusion hcontra

/-- Claim C4, witness for the amended theorem at a concrete directory. -/
theorem C4_witness :
    next ⟨[], [], some [1]⟩ (GameDataReader.open 3 ⟨[], [], some [1]⟩).records =
      .error .ioErr :=
  C4_empty_dir_read_fails 3 ⟨[], [], some [1]⟩ rfl

/-- Claim C5, amended: `remove_game(game_id)` issues TWO round-trips, not
one: a standalone `SREM` of the id's 4-byte little-endian encoding from the
games set, followed by one atomic pipeline of the same `SREM` together with
`DEL` of the per-game hash key, and no other commands.  The net state effect
equals that of the single pipeline alone (the standalone `SREM` is
redundant). -/
theorem C5_remove_game (gid : Int) :
    remove_game_trips gid =
      [ .single (.srem GAME_SET_KEY (.bytes (i32leBytes gid))),
        .pipelineAtomic
          [ .srem GAME_SET_KEY (.bytes (i32leBytes gid)),
            .del (gameHashKey gid) ] ] ∧
    ∀ st : RedisState, remove_game st gid =
      ⟨st.games.filter (fun x => !(x == i32leBytes gid)),
        st.gameHashes.filter (fun p => !(p.1 == gid))⟩ := by
  refine ⟨rfl, ?_⟩
  intro st
  unfold remove_game
  show (⟨(st.games.filter (fun x => !(x == i32leBytes gid))).filter
        (fun x => !(x == i32leBytes gid)),
      st.gameHashes.filter (fun p => !(p.1 == gid))⟩ : RedisState) = _
  rw [List.filter_filter]
  have : (fun x => (!(x == i32leBytes gid)) && !(x == i32leBytes gid)) =
      (fun x : List Nat => !(x == i32leBytes gid)) := by
    funext x
    exact Bool.and_self _
  rw [this]

/-- Claim C5, counterexample: the command trace of `remove_game` is not the
single atomic pipeline the claim describes — it has two round-trips (the
code first issues a standalone `SREM`, then the pipeline). -/
theorem C5_counterexample :
    remove_game_trips 1 ≠
      [RedisRoundTrip.pipelineAtomic
        [ .srem GAME_SET_KEY (.bytes (i32leBytes 1)),
          .del (gameHashKey 1) ]] := by
  intro h
  have := congrArg List.length h
  simp [remove_game_trips] at this

/-- Claim C6 (confirmed): `get_game_state(game_id)` returns `Some` if and
only if the per-game hash has `shard_id` present and `finished_seq_id`
present with exactly 4 bytes; in particular after `add_game` (which writes
only `shard_id`) and before any `set_game_finished_seq_id`, it returns
`None`. -/
theorem C6_get_game_state :
    (∀ (st : RedisState) (gid : Int),
      (get_game_state st gid).isSome = true ↔
        ((st.getHash gid).shard_id.isSome = true ∧
          ∃ b, (st.getHash gid).finished_seq_id = some b ∧ b.length = 4)) ∧
    (∀ (st : RedisState) (gid : Int) (shard : String),
      (st.getHash gid).finished_seq_id = none →
      get_game_state (add_game st gid shard) gid = none) := by
  constructor
  · intro st gid
    unfold get_game_state
    dsimp only
    rcases hs : (st.getHash gid).shard_id with _ | shard
    · simp
    · rcases hf : (st.getHash gid).finished_seq_id with _ | b
      · simp
      · rcases b with _ | ⟨b0, _ | ⟨b1, _ | ⟨b2, _ | ⟨b3, _ | ⟨b4, b⟩⟩⟩⟩⟩ <;>
          simp <;> omega
  · intro st gid shard hf
    unfold add_game
    dsimp only
    unfold get_game_state
    rw [getHash_setHash]
    dsimp only
    have hsame : (({ st with
        games := if st.games.contains (i32leBytes gid) then st.games
          else st.games ++ [i32leBytes gid] } : RedisState).getHash gid).finished_seq_id =
        (st.getHash gid).finished_seq_id := rfl
    rw [hsame, hf]

/-- Claim C6, witness: after `add_game` on a fresh store and before any
`set_game_finished_seq_id`, `get_game_state` returns `None`. -/
theorem C6_witness :
    get_game_state (add_game ⟨[], []⟩ 5 "s") 5 = none :=
  C6_get_game_state.2 ⟨[], []⟩ 5 "s" (by decide)

/-- Claim C7 (confirmed): the `FileHeader` encoding is exactly 8 bytes, the
signature `"flo\x01"` followed by `game_id` little-endian; on a plaintext of
at least 8 bytes, `GameDataArchiveReader::open` fails with
`DecodeArchiveHeader` exactly when the first 4 bytes differ from the
signature, and for any `game_id` a header it wrote itself decodes with
`game_id()` returning that id. -/
theorem C7_header_codec :
    (∀ gid : Int, (FileHeader.new gid).bytes.length = 8 ∧
      (FileHeader.new gid).bytes = SIGNATURE ++ i32leBytes gid) ∧
    (∀ pt : List Nat, 8 ≤ pt.length →
      (GameDataArchiveReader.open pt = .error .decodeArchiveHeader ↔
        pt.take 4 ≠ SIGNATURE)) ∧
    (∀ gid : Int, -(2 ^ 31) ≤ gid → gid < 2 ^ 31 → ∀ rest : List Nat,
      ∃ ar, GameDataArchiveReader.open ((FileHeader.new gid).bytes ++ rest) =
          .ok ar ∧ ar.game_id = gid) := by
  refine ⟨?_, ?_, ?_⟩
  · intro gid
    constructor
    · show (SIGNATURE ++ i32leBytes gid).length = 8
      simp [SIGNATURE, i32leBytes, u32leBytes]
    · rfl
  · intro pt hlen
    obtain ⟨s0, s1, s2, s3, b0, b1, b2, b3, rest, rfl⟩ :
        ∃ s0 s1 s2 s3 b0 b1 b2 b3 rest,
          pt = s0 :: s1 :: s2 :: s3 :: b0 :: b1 :: b2 :: b3 :: rest := by
      rcases pt with _ | ⟨s0, pt⟩
      · simp only [List.length_nil] at hlen; omega
      rcases pt with _ | ⟨s1, pt⟩
      · simp only [List.length_cons, List.length_nil] at hlen; omega
      rcases pt with _ | ⟨s2, pt⟩
      · simp only [List.length_cons, List.length_nil] at hlen; omega
      rcases pt with _ | ⟨s3, pt⟩
      · simp only [List.length_cons, List.length_nil] at hlen; omega
      rcases pt with _ | ⟨b0, pt⟩
      · simp only [List.length_cons, List.length_nil] at hlen; omega
      rcases pt with _ | ⟨b1, pt⟩
      · simp only [List.length_cons, List.length_nil] at hlen; omega
      rcases pt with _ | ⟨b2, pt⟩
      · simp only [List.length_cons, List.length_nil] at hlen; omega
      rcases pt with _ | ⟨b3, pt⟩
      · simp only [List.length_cons, List.length_nil] at hlen; omega
      exact ⟨s0, s1, s2, s3, b0, b1, b2, b3, pt, rfl⟩
    by_cases hsig : [s0, s1, s2, s3] = SIGNATURE
    · rw [archive_open_cons _ _ _ _ _ _ _ _ rest hsig]
      constructor
      · intro hcontra
        exact absurd hcontra (fun hh => Except.noConfusion hh)
      · intro htake
        exfalso
        exact htake hsig
    · have hopen : GameDataArchiveReader.open
          (s0 :: s1 :: s2 :: s3 :: b0 :: b1 :: b2 :: b3 :: rest) =
          .error .decodeArchiveHeader := by
        unfold GameDataArchiveReader.open
        rw [if_neg (by simp)]
        have hdec : FileHeader.decode
            ((s0 :: s1 :: s2 :: s3 :: b0 :: b1 :: b2 :: b3 :: rest).take 8) =
            .error .decodeArchiveHeader := by
          show FileHeader.decode [s0, s1, s2, s3, b0, b1, b2, b3] = _
          unfold FileHeader.decode
          dsimp only
          rw [if_neg hsig]
        rw [hdec]
      rw [hopen]
      constructor
      · intro _
        exact hsig
      · intro _
        rfl
  · intro gid hlo hhi rest
    exact ⟨⟨⟨SIGNATURE, gid⟩, rest⟩, archive_open_header gid rest hlo hhi, rfl⟩

/-- Claim C7, witness: a correctly signed header decodes (at id 5), and the
error iff holds at a concrete 8-byte plaintext. -/
theorem C7_witness :
    (GameDataArchiveReader.open [0x66, 0x6C, 0x6F, 0x01, 9, 0, 0, 0] =
        .error .decodeArchiveHeader ↔
      ([0x66, 0x6C, 0x6F, 0x01, 9, 0, 0, 0] : List Nat).take 4 ≠ SIGNATURE) ∧
    ∃ ar, GameDataArchiveReader.open ((FileHeader.new 5).bytes ++ []) = .ok ar ∧
      ar.game_id = 5 :=
  ⟨C7_header_codec.2.1 _ (by decide),
    C7_header_codec.2.2 5 (by decide) (by decide) []⟩

/-- Claim C8, amended: `build_archive` does NOT create `archive.gz`
exclusively: its outcome is independent of any existing `archive.gz`
(`File::create` truncates), and on success the archive holds the newly built
header-plus-chunks plaintext, overwriting the old content. -/
theorem C8_build_archive_overwrites :
    ∀ (w : GameDataWriter) (fs : FsState) (a : List Nat),
      fs.archive = some a →
      w.build_archive fs = w.build_archive { fs with archive := none } ∧
      ∀ r, w.build_archive fs = .ok r →
        ∃ tail, r.2.archive = some ((FileHeader.new w.game_id).bytes ++ tail) := by
  intro w fs a ha
  constructor
  · exact (build_archive_archive_indep w fs none).symm
  · intro r hr
    unfold GameDataWriter.build_archive at hr
    rcases hfl : w.flush_chunk fs with ⟨w1, fs1⟩
    rw [hfl] at hr
    dsimp only at hr
    match hm : (List.range w1.chunk_id).mapM (readFile fs1) with
    | .error e =>
        rw [hm] at hr
        cases hr
    | .ok chunks =>
        rw [hm] at hr
        dsimp only at hr
        cases hr
        refine ⟨chunks.flatten, ?_⟩
        have hg : w1.game_id = w.game_id := by
          have := flush_chunk_game_id w fs
          rw [hfl] at this
          exact this
        dsimp only
        rw [hg]

/-- Claim C8, counterexample: with `archive.gz` already present (content
`[7]`), `build_archive` succeeds and replaces it instead of failing. -/
theorem C8_counterexample :
    (⟨[], [], some [7]⟩ : FsState).archive = some [7] ∧
    GameDataWriter.build_archive ⟨1, 0, []⟩ ⟨[], [], some [7]⟩ =
      .ok (⟨1, 0, []⟩, ⟨[], [], some (FileHeader.new 1).bytes⟩) :=
  ⟨rfl, rfl⟩

/-- Claim C8, witness for the amended theorem at a concrete state. -/
theorem C8_witness :
    GameDataWriter.build_archive ⟨1, 0, []⟩ ⟨[], [], some [7]⟩ =
      GameDataWriter.build_archive ⟨1, 0, []⟩ ⟨[], [], none⟩ ∧
    ∀ r, GameDataWriter.build_archive ⟨1, 0, []⟩ ⟨[], [], some [7]⟩ = .ok r →
      ∃ tail, r.2.archive =
        some ((FileHeader.new (⟨1, 0, []⟩ : GameDataWriter).game_id).bytes ++ tail) :=
  C8_build_archive_overwrites ⟨1, 0, []⟩ ⟨[], [], some [7]⟩ [7] rfl

/-- Claim C10 (confirmed): `create` immediately followed by `build_archive`
produces an archive whose plaintext is exactly the 8-byte `FileHeader`; the
archive reader opens it, reports the writer's `game_id`, and its records
sequence is empty — the first `next()` returns `None` without error. -/
theorem C10_empty_archive (gid : Int) (hlo : -(2 ^ 31) ≤ gid)
    (hhi : gid < 2 ^ 31) :
    ∃ (w : GameDataWriter) (fs : FsState) (ar : GameDataArchiveReader),
      GameDataWriter.build_archive (GameDataWriter.create gid emptyFs).1
        (GameDataWriter.create gid emptyFs).2 = .ok (w, fs) ∧
      fs.archive = some (FileHeader.new gid).bytes ∧
      (FileHeader.new gid).bytes.length = 8 ∧
      GameDataArchiveReader.open (FileHeader.new gid).bytes = .ok ar ∧
      ar.game_id = gid ∧
      next fs ar.records = .ok none ∧
      collectVec fs ar.records = .ok [] := by
  refine ⟨⟨gid, 0, []⟩, ⟨[], [], some (FileHeader.new gid).bytes⟩,
    ⟨⟨SIGNATURE, gid⟩, []⟩, ?_, rfl, ?_, ?_, rfl, ?_, ?_⟩
  · rfl
  · show (SIGNATURE ++ i32leBytes gid).length = 8
    simp [SIGNATURE, i32leBytes, u32leBytes]
  · have := archive_open_header gid [] hlo hhi
    simpa using this
  · exact next_content_end _
  · exact collectVec_next_none (next_content_end _)

/-- Claim C10, witness at a concrete game id. -/
theorem C10_witness :
    ∃ (w : GameDataWriter) (fs : FsState) (ar : GameDataArchiveReader),
      GameDataWriter.build_archive (GameDataWriter.create 3 emptyFs).1
        (GameDataWriter.create 3 emptyFs).2 = .ok (w, fs) ∧
      fs.archive = some (FileHeader.new 3).bytes ∧
      (FileHeader.new 3).bytes.length = 8 ∧
      GameDataArchiveReader.open (FileHeader.new 3).bytes = .ok ar ∧
      ar.game_id = 3 ∧
      next fs ar.records = .ok none ∧
      collectVec fs ar.records = .ok [] :=
  C10_empty_archive 3 (by decide) (by decide)

end Flo
